import Mathlib

/-!
Verification of the tool-extraction core of `openapi-mcp-generator`.

The development shallowly embeds `src/parser/extract-tools.ts` together with the
`x-mcp` helpers (`normalizeBoolean`, `shouldIncludeOperationForMcp`) from
`src/utils/helpers.ts`.  JavaScript objects that matter only through a handful of
fields become Lean structures; the mutable schema-object graph handled by
`mapOpenApiSchemaToJsonSchema` becomes an explicit heap (a list of schema
records addressed by position), so object identity, the `WeakSet` cycle check
and the one in-place `type.push('null')` update are all expressible.
-/

namespace Oas

/-- A raw `x-mcp` extension value as seen by `normalizeBoolean`.  JavaScript
hands the helper an arbitrary value: a boolean, a string, anything else
(`null`, numbers, plain objects), or an exotic object whose inspection throws
(for example a throwing getter); the last case is what the `try/catch` in
`extractToolsFromApi` guards against. -/
inductive XVal where
  | xbool (b : Bool)
  | xstr (s : String)
  | xother
  | xraise
deriving DecidableEq, Repr

/-- Whitespace test used by the embedded `String.prototype.trim`. -/
def jsWhitespace (c : Char) : Bool :=
  c = ' ' ∨ c = '\t' ∨ c = '\n' ∨ c = '\r'

/-- Embedded `value.trim()`: drop leading and trailing whitespace. -/
def jsTrim (s : String) : String :=
  ⟨(((s.data.dropWhile jsWhitespace).reverse.dropWhile jsWhitespace).reverse)⟩

/-- Lower-case one ASCII character, as `toLowerCase` does on ASCII input. -/
def lowerChar (c : Char) : Char :=
  if 'A' ≤ c ∧ c ≤ 'Z' then Char.ofNat (c.toNat + 32) else c

/-- Embedded `value.toLowerCase()` (ASCII fragment). -/
def jsToLower (s : String) : String :=
  ⟨s.data.map lowerChar⟩

/-- Embeds `normalizeBoolean` from `src/utils/helpers.ts`: booleans pass
through; strings are trimmed, lower-cased and compared against the two
keyword lists; everything else is `undefined` (here `none`).  The `xraise`
case never reaches this function in `shouldIncludeOperationForMcp` because
reading such a value already throws. -/
def normalizeBoolean : XVal → Option Bool
  | .xbool b => some b
  | .xstr s =>
    let n := jsToLower (jsTrim s)
    if n ∈ ["true", "1", "yes", "on"] then some true
    else if n ∈ ["false", "0", "no", "off"] then some false
    else none
  | .xother => none
  | .xraise => none

/-- Reading an extension value out of a JavaScript object: an `xraise` value
models a property whose access throws. -/
def readX : Option XVal → Except Unit (Option XVal)
  | some .xraise => .error ()
  | v => .ok v

/-- Embeds `shouldIncludeOperationForMcp` from `src/utils/helpers.ts`:
operation value, then path value, then root value, each scope consulted only
when every higher-precedence scope normalized to `undefined`; the provided
default closes the chain.  A scope whose raw value cannot even be read
propagates the exception. -/
def shouldIncludeOperationForMcp (opRaw pathRaw rootRaw : Option XVal)
    (defaultInclude : Bool) : Except Unit Bool := do
  let opR ← readX opRaw
  match opR.bind normalizeBoolean with
  | some b => return b
  | none => do
    let pathR ← readX pathRaw
    match pathR.bind normalizeBoolean with
    | some b => return b
    | none => do
      let rootR ← readX rootRaw
      match rootR.bind normalizeBoolean with
      | some b => return b
      | none => return defaultInclude

/-- Well-formedness of a raw value exactly as the claim words it: a boolean,
or a string equal case-insensitively to one of the keyword spellings — with
no trimming of surrounding whitespace. -/
def claimWellFormedValue : XVal → Option Bool
  | .xbool b => some b
  | .xstr s =>
    if jsToLower s ∈ ["true", "1", "yes", "on"] then some true
    else if jsToLower s ∈ ["false", "0", "no", "off"] then some false
    else none
  | .xother => none
  | .xraise => none

/-- The inclusion decision the claim describes, built from
`claimWellFormedValue` by pure precedence. -/
def claimResolve (opRaw pathRaw rootRaw : Option XVal) (d : Bool) : Bool :=
  match opRaw.bind claimWellFormedValue with
  | some b => b
  | none =>
    match pathRaw.bind claimWellFormedValue with
    | some b => b
    | none =>
      match rootRaw.bind claimWellFormedValue with
      | some b => b
      | none => d

/-- Well-formedness as amended: the string is compared after trimming
leading and trailing whitespace.  On every value this coincides with what
`normalizeBoolean` accepts. -/
def amendedWellFormedValue : XVal → Option Bool
  | .xbool b => some b
  | .xstr s =>
    if jsToLower (jsTrim s) ∈ ["true", "1", "yes", "on"] then some true
    else if jsToLower (jsTrim s) ∈ ["false", "0", "no", "off"] then some false
    else none
  | .xother => none
  | .xraise => none

theorem amendedWellFormed_eq_normalize (v : XVal) :
    amendedWellFormedValue v = normalizeBoolean v := by
  cases v <;> rfl

@[simp] theorem exceptOkBind {ε α β : Type} (a : α) (f : α → Except ε β) :
    (Except.ok a >>= f) = f a := rfl

@[simp] theorem exceptErrorBind {ε α β : Type} (e : ε) (f : α → Except ε β) :
    ((Except.error e : Except ε α) >>= f) = Except.error e := rfl

@[simp] theorem exceptPureEq {ε α : Type} (a : α) :
    (pure a : Except ε α) = Except.ok a := rfl

/-- One scope of the precedence chain: read the raw value, answer when it
normalizes to a boolean, otherwise continue with the rest of the chain. -/
def scopeStep (raw : Option XVal) (rest : Except Unit Bool) : Except Unit Bool := do
  let r ← readX raw
  match r.bind normalizeBoolean with
  | some b => return b
  | none => rest

theorem shouldInclude_eq_steps (opRaw pathRaw rootRaw : Option XVal) (d : Bool) :
    shouldIncludeOperationForMcp opRaw pathRaw rootRaw d =
      scopeStep opRaw (scopeStep pathRaw (scopeStep rootRaw (.ok d))) := rfl

lemma scopeStep_wf (raw : Option XVal) (rest : Except Unit Bool) (b : Bool)
    (h : raw.bind normalizeBoolean = some b) : scopeStep raw rest = .ok b := by
  cases raw with
  | none => simp at h
  | some v =>
    have hv : v ≠ .xraise := by
      rintro rfl; simp [Option.bind, normalizeBoolean] at h
    simp only [Option.bind] at h
    cases v <;> simp_all [scopeStep, readX]

lemma scopeStep_fall (raw : Option XVal) (rest : Except Unit Bool)
    (hnr : raw ≠ some .xraise) (h : raw.bind normalizeBoolean = none) :
    scopeStep raw rest = rest := by
  cases raw with
  | none => simp [scopeStep, readX]
  | some v =>
    simp only [Option.bind] at h
    cases v <;> simp_all [scopeStep, readX]

lemma shouldInclude_op (opRaw pathRaw rootRaw : Option XVal) (d : Bool) (b : Bool)
    (h : opRaw.bind normalizeBoolean = some b) :
    shouldIncludeOperationForMcp opRaw pathRaw rootRaw d = .ok b := by
  rw [shouldInclude_eq_steps, scopeStep_wf _ _ _ h]

lemma shouldInclude_path (opRaw pathRaw rootRaw : Option XVal) (d : Bool) (b : Bool)
    (hnr : opRaw ≠ some .xraise) (h : opRaw.bind normalizeBoolean = none)
    (hp : pathRaw.bind normalizeBoolean = some b) :
    shouldIncludeOperationForMcp opRaw pathRaw rootRaw d = .ok b := by
  rw [shouldInclude_eq_steps, scopeStep_fall _ _ hnr h, scopeStep_wf _ _ _ hp]

lemma shouldInclude_root (opRaw pathRaw rootRaw : Option XVal) (d : Bool) (b : Bool)
    (hnr : opRaw ≠ some .xraise) (hnp : pathRaw ≠ some .xraise)
    (h : opRaw.bind normalizeBoolean = none) (hp : pathRaw.bind normalizeBoolean = none)
    (hr : rootRaw.bind normalizeBoolean = some b) :
    shouldIncludeOperationForMcp opRaw pathRaw rootRaw d = .ok b := by
  rw [shouldInclude_eq_steps, scopeStep_fall _ _ hnr h, scopeStep_fall _ _ hnp hp,
    scopeStep_wf _ _ _ hr]

lemma shouldInclude_default (opRaw pathRaw rootRaw : Option XVal) (d : Bool)
    (hnr : opRaw ≠ some .xraise) (hnp : pathRaw ≠ some .xraise) (hnt : rootRaw ≠ some .xraise)
    (h : opRaw.bind normalizeBoolean = none) (hp : pathRaw.bind normalizeBoolean = none)
    (hr : rootRaw.bind normalizeBoolean = none) :
    shouldIncludeOperationForMcp opRaw pathRaw rootRaw d = .ok d := by
  rw [shouldInclude_eq_steps, scopeStep_fall _ _ hnr h, scopeStep_fall _ _ hnp hp,
    scopeStep_fall _ _ hnt hr]

end Oas

deriving instance DecidableEq for Except

namespace Oas

/-- C1 (counterexample): the claim's untrimmed notion of well-formedness
mispredicts the code on a padded string.  With `x-mcp = " false "` on the
operation and `x-mcp = true` on the path, the claim calls the operation value
malformed and lets the path value include the operation, but the code trims
the string, reads it as false-like, and excludes the operation. -/
theorem spec_c1_counterexample :
    shouldIncludeOperationForMcp (some (.xstr " false ")) (some (.xbool true)) none true ≠
      Except.ok (claimResolve (some (.xstr " false ")) (some (.xbool true)) none true) := by
  decide

/-- C1 (amended): with well-formedness meaning a boolean or a string whose
trimmed form matches a keyword case-insensitively, the inclusion decision
follows strict precedence: a well-formed operation value alone decides
(whatever the path/root values are, even unreadable ones); lacking that a
well-formed path value decides; then a well-formed root value; otherwise the
configured default.  A present-but-malformed value at a scope falls through
to the next scope. -/
theorem spec_c1_amended_precedence (opRaw pathRaw rootRaw : Option XVal) (d : Bool) :
    (∀ b, opRaw.bind amendedWellFormedValue = some b →
      shouldIncludeOperationForMcp opRaw pathRaw rootRaw d = .ok b)
    ∧ (opRaw ≠ some .xraise → opRaw.bind amendedWellFormedValue = none →
      ∀ b, pathRaw.bind amendedWellFormedValue = some b →
        shouldIncludeOperationForMcp opRaw pathRaw rootRaw d = .ok b)
    ∧ (opRaw ≠ some .xraise → pathRaw ≠ some .xraise →
      opRaw.bind amendedWellFormedValue = none →
      pathRaw.bind amendedWellFormedValue = none →
      ∀ b, rootRaw.bind amendedWellFormedValue = some b →
        shouldIncludeOperationForMcp opRaw pathRaw rootRaw d = .ok b)
    ∧ (opRaw ≠ some .xraise → pathRaw ≠ some .xraise → rootRaw ≠ some .xraise →
      opRaw.bind amendedWellFormedValue = none →
      pathRaw.bind amendedWellFormedValue = none →
      rootRaw.bind amendedWellFormedValue = none →
        shouldIncludeOperationForMcp opRaw pathRaw rootRaw d = .ok d) := by
  have hb : ∀ x : Option XVal, x.bind amendedWellFormedValue = x.bind normalizeBoolean := by
    intro x; cases x with
    | none => rfl
    | some v => simp [Option.bind, amendedWellFormed_eq_normalize]
  refine ⟨fun b h => ?_, fun h1 h2 b h3 => ?_, fun h1 h2 h3 h4 b h5 => ?_,
    fun h1 h2 h3 h4 h5 h6 => ?_⟩
  · exact shouldInclude_op _ _ _ _ _ (by rw [← hb]; exact h)
  · exact shouldInclude_path _ _ _ _ _ h1 (by rw [← hb]; exact h2) (by rw [← hb]; exact h3)
  · exact shouldInclude_root _ _ _ _ _ h1 h2 (by rw [← hb]; exact h3) (by rw [← hb]; exact h4)
      (by rw [← hb]; exact h5)
  · exact shouldInclude_default _ _ _ _ h1 h2 h3 (by rw [← hb]; exact h4) (by rw [← hb]; exact h5)
      (by rw [← hb]; exact h6)

/-- Witness for the amended C1 theorem at concrete scope values: a malformed
operation value ("maybe") falls through to the false-like path value "No". -/
theorem spec_c1_amended_precedence_witness :
    shouldIncludeOperationForMcp (some (.xstr "maybe")) (some (.xstr "No")) (some (.xbool true))
      true = .ok false :=
  (spec_c1_amended_precedence (some (.xstr "maybe")) (some (.xstr "No")) (some (.xbool true))
    true).2.1 (by decide) (by decide) false (by decide)

/-! ## The schema mapper (`mapOpenApiSchemaToJsonSchema`)

Schema objects live on a heap (`List SchemaObj`, addressed by position), which
models JavaScript object identity: the `WeakSet` of nodes on the active
recursion path becomes a list of addresses, and the single place where the
function writes through its shallow copy into the input graph
(`jsonSchema.type.push('null')` on a shared `type` array) becomes a `List.set`
on the heap. -/

/-- The `type` field of a schema object: a single type name or an array of
type names (the array is stored inline in the owning node). -/
inductive TypeField where
  | single (s : String)
  | arr (l : List String)
deriving DecidableEq, Repr

/-- A JavaScript value appearing in a `properties` map entry or an `items`
field: a pointer to a schema object on the heap, a boolean schema, `null`,
or a primitive. -/
inductive JVal where
  | obj (addr : Nat)
  | jbool (b : Bool)
  | jnull
  | jstr (s : String)
  | jnum (n : Int)
deriving DecidableEq, Repr

/-- One schema object, with the fields `mapOpenApiSchemaToJsonSchema`
inspects.  The presentation-only fields it deletes from the copy
(`example`, `xml`, `externalDocs`, `deprecated`, `readOnly`, `writeOnly`)
carry no behavior and are not modelled; `nullable` is kept because it drives
the type rewrite. -/
structure SchemaObj where
  ref : Option String := none
  type : Option TypeField := none
  nullable : Bool := false
  properties : Option (List (String × JVal)) := none
  items : Option JVal := none
  description : Option String := none
  title : Option String := none
  required : Option (List String) := none
deriving DecidableEq, Repr

/-- The heap of schema objects; an address is a position in the list. -/
abbrev Heap := List SchemaObj

mutual
/-- A mapped (output) schema node.  Fields mirror the copy the function
returns: the rewritten `type`, the `properties` and `items` fields (mapped,
or carried over raw when the node is not object- or array-typed), and the
copied-through `description`, `title` and `required` fields.  The deleted
OpenAPI-only fields have no counterpart here. -/
inductive ONode where
  | mk (type : Option TypeField) (props : OProps) (items : OItems)
       (description : Option String) (title : Option String)
       (required : Option (List String))

/-- The `properties` field of a mapped node: absent, carried over raw
(node not object-typed), or rebuilt from the recursively mapped entries. -/
inductive OProps where
  | noProps
  | raw (l : List (String × JVal))
  | mapped (l : List (String × PropVal))

/-- One mapped property value: a boolean schema passed through unchanged or
a recursively mapped node. -/
inductive PropVal where
  | pbool (b : Bool)
  | pnode (n : ONode)

/-- The `items` field of a mapped node: absent, carried over raw, or the
recursively mapped node. -/
inductive OItems where
  | noItems
  | raw (v : JVal)
  | mapped (n : ONode)
end

/-- The generic open object `{type: 'object'}` substituted for unresolved
references and detected cycles. -/
def genericObject : ONode :=
  .mk (some (.single "object")) .noProps .noItems none none none

/-- The `integer` → `number` rewrite (only the exact string `'integer'` in
a single-type field is rewritten, mirroring `schema.type === 'integer'`). -/
def integerToNumber (t : Option TypeField) : Option TypeField :=
  if t = some (.single "integer") then some (.single "number") else t

/-- The `nullable: true` folding.  For an array-valued `type` lacking
`'null'`, the push writes through the shallow copy into the input node: the
heap entry at `addr` gets the extended array.  A single type becomes a
fresh two-element array, and a missing type becomes `'null'`; neither of
those touches the heap. -/
def applyNullable (node : SchemaObj) (addr : Nat) (t1 : Option TypeField) (heap : Heap) :
    Option TypeField × Heap :=
  if node.nullable then
    match t1 with
    | some (.arr l) =>
      if "null" ∈ l then (some (.arr l), heap)
      else (some (.arr (l ++ ["null"])),
            heap.set addr { node with type := some (.arr (l ++ ["null"])) })
    | some (.single s) => (some (.arr [s, "null"]), heap)
    | none => (some (.single "null"), heap)
  else (t1, heap)

/-- Recursion over a `properties` map, parameterized by the recursive call
`rec` on child nodes.  Entries that are objects are mapped through `rec`,
boolean entries pass through, and entries of any other shape are dropped
(mirroring the `typeof propSchema` checks). -/
def mapPropsF (rec : Heap → List Nat → Nat → Option (ONode × Heap)) :
    Heap → List Nat → List (String × JVal) → Option (List (String × PropVal) × Heap)
  | heap, _, [] => some ([], heap)
  | heap, seen, (k, v) :: rest =>
    match v with
    | .obj a => do
      let (n, h1) ← rec heap seen a
      let (l, h2) ← mapPropsF rec h1 seen rest
      some ((k, .pnode n) :: l, h2)
    | .jbool b => do
      let (l, h2) ← mapPropsF rec heap seen rest
      some ((k, .pbool b) :: l, h2)
    | _ => mapPropsF rec heap seen rest

/-- The `properties` rewrite of one node: recurse (through `pm`, the
`properties` traversal) only when the rewritten type is exactly the string
`'object'` and a `properties` field is present; any other node carries its
`properties` field over untouched. -/
def propsStep
    (pm : Heap → List Nat → List (String × JVal) → Option (List (String × PropVal) × Heap))
    (heap : Heap) (seen : List Nat) (t2 : Option TypeField)
    (propsOpt : Option (List (String × JVal))) : Option (OProps × Heap) :=
  if t2 = some (.single "object") then
    match propsOpt with
    | some plist => (pm heap seen plist).map (fun r => (OProps.mapped r.1, r.2))
    | none => some (.noProps, heap)
  else
    match propsOpt with
    | some l => some (.raw l, heap)
    | none => some (.noProps, heap)

/-- The `items` rewrite of one node: recurse (through `rec`) only when the
rewritten type is exactly the string `'array'` and `items` is an object;
any other `items` value carries over untouched. -/
def itemsStep (rec : Heap → List Nat → Nat → Option (ONode × Heap))
    (heap : Heap) (seen : List Nat) (t2 : Option TypeField)
    (itemsOpt : Option JVal) : Option (OItems × Heap) :=
  if t2 = some (.single "array") then
    match itemsOpt with
    | some (JVal.obj a) => (rec heap seen a).map (fun r => (OItems.mapped r.1, r.2))
    | some v => some (.raw v, heap)
    | none => some (.noItems, heap)
  else
    match itemsOpt with
    | some v => some (.raw v, heap)
    | none => some (.noItems, heap)

/-- Embeds `mapOpenApiSchemaToJsonSchema` on a schema object at `addr`.
`seen` is the set of node identities on the active recursion path; children
are mapped with `addr` added, and siblings are mapped with the original
`seen`, which is exactly the `seen.add(schema)` / `finally seen.delete`
discipline of the source.  `fuel` bounds the recursion depth so the
function is total; the termination theorem shows any `fuel` exceeding the
number of not-yet-visited heap addresses is enough.  A dangling address
(impossible for a heap built from real JavaScript objects) maps to the
generic object. -/
def mapSchema : Nat → Heap → List Nat → Nat → Option (ONode × Heap)
  | 0, _, _, _ => none
  | fuel + 1, heap, seen, addr =>
    match heap[addr]? with
    | none => some (genericObject, heap)
    | some node =>
      if node.ref.isSome then some (genericObject, heap)
      else if addr ∈ seen then some (genericObject, heap)
      else
        let seen' := addr :: seen
        let tn := applyNullable node addr (integerToNumber node.type) heap
        do
          let ph ← propsStep (mapPropsF (mapSchema fuel)) tn.2 seen' tn.1 node.properties
          let ih ← itemsStep (mapSchema fuel) ph.2 seen' tn.1 node.items
          some (.mk tn.1 ph.1 ih.1 node.description node.title node.required, ih.2)

/-- `mapProps fuel` is the `properties` traversal with child calls at the
given fuel. -/
def mapProps (fuel : Nat) : Heap → List Nat → List (String × JVal) →
    Option (List (String × PropVal) × Heap) :=
  mapPropsF (mapSchema fuel)

/-- Number of heap addresses not on the active recursion path; the measure
that shrinks on every descent. -/
def unseen (n : Nat) (seen : List Nat) : Nat :=
  ((Finset.range n).filter (fun a => a ∉ seen)).card

@[simp] theorem optionBindEqBind {α β : Type} (x : Option α) (f : α → Option β) :
    (x >>= f) = x.bind f := rfl

lemma unseen_cons_lt (n : Nat) (seen : List Nat) (addr : Nat)
    (ha : addr < n) (hs : addr ∉ seen) : unseen n (addr :: seen) < unseen n seen := by
  apply Finset.card_lt_card
  rw [Finset.ssubset_def]
  constructor
  · intro x hx
    simp only [Finset.mem_filter, Finset.mem_range, List.mem_cons] at hx ⊢
    exact ⟨hx.1, fun h => hx.2 (Or.inr h)⟩
  · intro hsub
    have := hsub (by simp [ha, hs] : addr ∈ (Finset.range n).filter (fun a => a ∉ seen))
    simp at this

lemma unseen_eq_of_length_eq {n m : Nat} (seen : List Nat) (h : n = m) :
    unseen n seen = unseen m seen := by rw [h]

lemma mapPropsF_len (rec : Heap → List Nat → Nat → Option (ONode × Heap))
    (hrec : ∀ heap seen a r, rec heap seen a = some r → r.2.length = heap.length) :
    ∀ (ps : List (String × JVal)) (heap : Heap) (seen : List Nat)
      (r : List (String × PropVal) × Heap),
      mapPropsF rec heap seen ps = some r → r.2.length = heap.length := by
  intro ps
  induction ps with
  | nil =>
    intro heap seen r h
    simp only [mapPropsF] at h
    cases h
    rfl
  | cons e rest ih =>
    obtain ⟨k, v⟩ := e
    intro heap seen r h
    cases v with
    | obj a =>
      simp only [mapPropsF, optionBindEqBind, Option.bind_eq_some] at h
      obtain ⟨⟨n, h1⟩, h₁, ⟨⟨l, h2⟩, h₂, h₃⟩⟩ := h
      cases h₃
      exact (ih _ _ _ h₂).trans (hrec _ _ _ _ h₁)
    | jbool b =>
      simp only [mapPropsF, optionBindEqBind, Option.bind_eq_some] at h
      obtain ⟨⟨l, h2⟩, h₂, h₃⟩ := h
      cases h₃
      exact ih _ _ (l, h2) h₂
    | jnull => exact ih _ _ _ h
    | jstr s => exact ih _ _ _ h
    | jnum n => exact ih _ _ _ h

lemma applyNullable_len (node : SchemaObj) (addr : Nat) (t1 : Option TypeField) (heap : Heap) :
    (applyNullable node addr t1 heap).2.length = heap.length := by
  unfold applyNullable
  repeat' split
  all_goals simp

lemma propsStep_len
    (pm : Heap → List Nat → List (String × JVal) → Option (List (String × PropVal) × Heap))
    (hpm : ∀ heap seen ps r, pm heap seen ps = some r → r.2.length = heap.length)
    (heap : Heap) (seen : List Nat) (t2 : Option TypeField)
    (propsOpt : Option (List (String × JVal))) (r : OProps × Heap)
    (h : propsStep pm heap seen t2 propsOpt = some r) : r.2.length = heap.length := by
  unfold propsStep at h
  split at h <;> cases propsOpt <;> simp only at h
  · cases h; rfl
  · rw [Option.map_eq_some'] at h
    obtain ⟨r', hr', h⟩ := h
    rw [← h]
    exact hpm _ _ _ _ hr'
  · cases h; rfl
  · cases h; rfl

lemma itemsStep_len (rec : Heap → List Nat → Nat → Option (ONode × Heap))
    (hrec : ∀ heap seen a r, rec heap seen a = some r → r.2.length = heap.length)
    (heap : Heap) (seen : List Nat) (t2 : Option TypeField) (itemsOpt : Option JVal)
    (r : OItems × Heap) (h : itemsStep rec heap seen t2 itemsOpt = some r) :
    r.2.length = heap.length := by
  unfold itemsStep at h
  split at h
  · match itemsOpt, h with
    | some (JVal.obj a), h =>
      rw [Option.map_eq_some'] at h
      obtain ⟨r', hr', h⟩ := h
      rw [← h]
      exact hrec _ _ _ _ hr'
    | some (JVal.jbool b), h => cases h; rfl
    | some JVal.jnull, h => cases h; rfl
    | some (JVal.jstr s), h => cases h; rfl
    | some (JVal.jnum n), h => cases h; rfl
    | none, h => cases h; rfl
  · cases itemsOpt <;> simp only at h <;> (cases h; rfl)

lemma mapSchema_len : ∀ (fuel : Nat) (heap : Heap) (seen : List Nat) (addr : Nat)
    (r : ONode × Heap), mapSchema fuel heap seen addr = some r → r.2.length = heap.length := by
  intro fuel
  induction fuel with
  | zero => intro heap seen addr r h; simp [mapSchema] at h
  | succ fuel ih =>
    intro heap seen addr r h
    simp only [mapSchema] at h
    split at h
    · cases h; rfl
    · rename_i node heq
      split at h
      · cases h; rfl
      · split at h
        · cases h; rfl
        · simp only [optionBindEqBind, Option.bind_eq_some] at h
          obtain ⟨ph, hph, ⟨ihh, hih, hfin⟩⟩ := h
          cases hfin
          have hlen1 := applyNullable_len node addr (integerToNumber node.type) heap
          have hph2 : ph.2.length = heap.length :=
            (propsStep_len _
              (fun hp sn ps rr hr => mapPropsF_len _ (fun h s a r => ih h s a r) ps hp sn rr hr)
              _ _ _ _ _ hph).trans hlen1
          have hih2 : ihh.2.length = ph.2.length :=
            itemsStep_len _ (fun h s a r => ih h s a r) _ _ _ _ _ hih
          exact hih2.trans hph2

lemma mapPropsF_isSome (rec : Heap → List Nat → Nat → Option (ONode × Heap))
    (L : Nat) (seen : List Nat)
    (hlen : ∀ heap s a r, rec heap s a = some r → r.2.length = heap.length)
    (hsome : ∀ (heap : Heap) (a : Nat), heap.length = L → (rec heap seen a).isSome) :
    ∀ (ps : List (String × JVal)) (heap : Heap), heap.length = L →
      (mapPropsF rec heap seen ps).isSome := by
  intro ps
  induction ps with
  | nil => intro heap hL; simp [mapPropsF]
  | cons e rest ih =>
    obtain ⟨k, v⟩ := e
    intro heap hL
    cases v with
    | obj a =>
      obtain ⟨⟨n, h1⟩, hr⟩ := Option.isSome_iff_exists.mp (hsome heap a hL)
      have hlen1 : h1.length = L := by rw [hlen _ _ _ _ hr, hL]
      obtain ⟨⟨l, h2⟩, hr2⟩ := Option.isSome_iff_exists.mp (ih h1 hlen1)
      simp [mapPropsF, hr, hr2]
    | jbool b =>
      obtain ⟨⟨l, h2⟩, hr2⟩ := Option.isSome_iff_exists.mp (ih heap hL)
      simp [mapPropsF, hr2]
    | jnull => simpa [mapPropsF] using ih heap hL
    | jstr s => simpa [mapPropsF] using ih heap hL
    | jnum n => simpa [mapPropsF] using ih heap hL

lemma propsStep_isSome
    (pm : Heap → List Nat → List (String × JVal) → Option (List (String × PropVal) × Heap))
    (L : Nat) (seen : List Nat) (t2 : Option TypeField)
    (propsOpt : Option (List (String × JVal))) (heap : Heap) (hL : heap.length = L)
    (hpm : ∀ (h : Heap) (ps : List (String × JVal)), h.length = L → (pm h seen ps).isSome) :
    (propsStep pm heap seen t2 propsOpt).isSome := by
  unfold propsStep
  split <;> cases propsOpt <;> simp
  exact hpm heap _ hL

lemma itemsStep_isSome (rec : Heap → List Nat → Nat → Option (ONode × Heap))
    (L : Nat) (seen : List Nat) (t2 : Option TypeField) (itemsOpt : Option JVal)
    (heap : Heap) (hL : heap.length = L)
    (hrec : ∀ (h : Heap) (a : Nat), h.length = L → (rec h seen a).isSome) :
    (itemsStep rec heap seen t2 itemsOpt).isSome := by
  unfold itemsStep
  split
  · cases itemsOpt with
    | none => simp
    | some v => cases v <;> simp <;> exact hrec heap _ hL
  · cases itemsOpt <;> simp

/-- Termination core: any fuel exceeding the number of heap addresses not on
the active path makes the mapper succeed. -/
theorem mapSchema_isSome : ∀ (fuel : Nat) (heap : Heap) (seen : List Nat) (addr : Nat),
    unseen heap.length seen < fuel → (mapSchema fuel heap seen addr).isSome := by
  intro fuel
  induction fuel with
  | zero => intro heap seen addr h; omega
  | succ fuel ih =>
    intro heap seen addr h
    simp only [mapSchema]
    split
    · simp
    · rename_i node heq
      split
      · simp
      · split
        · simp
        · rename_i href hmem
          obtain ⟨haddr, -⟩ := List.getElem?_eq_some.mp heq
          have hun : unseen heap.length (addr :: seen) < fuel := by
            have := unseen_cons_lt heap.length seen addr haddr hmem
            omega
          have hL1 : (applyNullable node addr (integerToNumber node.type) heap).2.length
              = heap.length := applyNullable_len _ _ _ _
          have hrecS : ∀ (hp : Heap) (a : Nat), hp.length = heap.length →
              (mapSchema fuel hp (addr :: seen) a).isSome := by
            intro hp a hLp
            exact ih hp (addr :: seen) a (by rw [hLp]; exact hun)
          have hps := propsStep_isSome (mapPropsF (mapSchema fuel)) heap.length (addr :: seen)
            (applyNullable node addr (integerToNumber node.type) heap).1 node.properties _ hL1
            (fun hp ps hLp =>
              mapPropsF_isSome (mapSchema fuel) heap.length (addr :: seen)
                (fun h s a r => mapSchema_len fuel h s a r) hrecS ps hp hLp)
          obtain ⟨ph, hph⟩ := Option.isSome_iff_exists.mp hps
          have hL2 : ph.2.length = heap.length :=
            (propsStep_len _
              (fun hp sn ps rr hr =>
                mapPropsF_len _ (fun h s a r => mapSchema_len fuel h s a r) ps hp sn rr hr)
              _ _ _ _ _ hph).trans hL1
          have hit := itemsStep_isSome (mapSchema fuel) heap.length (addr :: seen)
            (applyNullable node addr (integerToNumber node.type) heap).1 node.items ph.2 hL2
            hrecS
          obtain ⟨ihh, hih⟩ := Option.isSome_iff_exists.mp hit
          simp [hph, hih]

/-- A one-node heap whose node is its own property (`self` points back to
address 0): the direct-cycle example. -/
def cycHeap : Heap :=
  [{ type := some (.single "object"), properties := some [("self", .obj 0)] }]

/-- A two-node acyclic heap where node 0 reaches node 1 twice (through
properties `x` and `y`): the revisit-after-backtrack example. -/
def dagHeap : Heap :=
  [{ type := some (.single "object"), properties := some [("x", .obj 1), ("y", .obj 1)] },
   { type := some (.single "string") }]

/-- The mapped form of `dagHeap`'s string node. -/
def strOut : ONode := .mk (some (.single "string")) .noProps .noItems none none none

/-- C2: the schema mapper always terminates — any fuel exceeding the number
of heap addresses off the active recursion path suffices — because each
descent adds the current node's identity to the visiting path and a node
already on the path is not descended into but replaced by the generic
`{type: 'object'}` node (conjuncts 1 and 2, the latter also leaving the heap
untouched).  On the direct self-cycle the result is a finite tree with the
generic object at the cycle point (conjunct 3), and on the acyclic
double-reference heap the second, non-cyclic revisit of node 1 is mapped
normally again because the identity was removed when the first visit
returned (conjunct 4). -/
theorem spec_c2_mapper_terminates :
    (∀ (fuel : Nat) (heap : Heap) (seen : List Nat) (addr : Nat),
      unseen heap.length seen < fuel → (mapSchema fuel heap seen addr).isSome)
    ∧ (∀ (fuel : Nat) (heap : Heap) (seen : List Nat) (addr : Nat), addr ∈ seen →
      mapSchema (fuel + 1) heap seen addr = some (genericObject, heap))
    ∧ mapSchema 3 cycHeap [] 0 =
        some (.mk (some (.single "object")) (.mapped [("self", .pnode genericObject)]) .noItems
          none none none, cycHeap)
    ∧ mapSchema 3 dagHeap [] 0 =
        some (.mk (some (.single "object"))
          (.mapped [("x", .pnode strOut), ("y", .pnode strOut)]) .noItems none none none,
          dagHeap) := by
  refine ⟨mapSchema_isSome, ?_, rfl, rfl⟩
  intro fuel heap seen addr hmem
  simp only [mapSchema]
  split
  · rfl
  · split
    · rfl
    · simp [hmem]

/-- Witness for C2 at concrete inputs: fuel 2 suffices for the one-node
cyclic heap, and a node already on the path maps to the generic object. -/
theorem spec_c2_mapper_terminates_witness :
    (mapSchema 2 cycHeap [] 0).isSome ∧
      mapSchema 5 cycHeap [0] 0 = some (genericObject, cycHeap) :=
  ⟨spec_c2_mapper_terminates.1 2 cycHeap [] 0 (by decide),
   spec_c2_mapper_terminates.2.1 4 cycHeap [0] 0 (by decide)⟩

/-- A one-node heap holding `{type: ['string'], nullable: true}` — the input
that exposes the write-through of `jsonSchema.type.push('null')`. -/
def mutHeap : Heap := [{ type := some (.arr ["string"]), nullable := true }]

/-- C8 (refuting the no-mutation claim): on `{type: ['string'], nullable:
true}` the spread copy shares the `type` array with the input, so the
`push('null')` that folds nullability writes through into the input node:
after mapping, the heap's node 0 has `type: ['string', 'null']`, different
from the input heap.  The returned node itself is the expected
`{type: ['string', 'null'], ...}`. -/
theorem spec_c8_input_mutated :
    mapSchema 1 mutHeap [] 0 =
      some (.mk (some (.arr ["string", "null"])) .noProps .noItems none none none,
        [{ type := some (.arr ["string", "null"]), nullable := true }]) ∧
    (mapSchema 1 mutHeap [] 0).map Prod.snd ≠ some mutHeap :=
  ⟨rfl, by decide⟩

/-- Property-map entries the source keeps: objects (recursed into) and
booleans (passed through); `null` and primitives are dropped. -/
def isKept : JVal → Bool
  | .obj _ => true
  | .jbool _ => true
  | _ => false

/-- The mapped form of `propsHeap`'s number node. -/
def numOut : ONode := .mk (some (.single "number")) .noProps .noItems none none none

/-- A `properties` list with one entry of every shape: `null`, object,
boolean, string, number. -/
def propsList : List (String × JVal) :=
  [("a", .jnull), ("b", .obj 1), ("c", .jbool false), ("d", .jstr "x"), ("e", .jnum 3)]

/-- An object-typed node carrying `propsList`, plus the number node that
entry `b` points to. -/
def propsHeap : Heap :=
  [{ type := some (.single "object"), properties := some propsList },
   { type := some (.single "number") }]

/-- C10: the `properties` traversal keeps exactly the object- and
boolean-valued entries, in order: the mapped list corresponds pointwise to
the filtered input list, with equal keys, booleans passed through unchanged
and objects replaced by a mapped node (conjunct 1).  Conjunct 2 runs the
whole mapper on an object-typed node with one entry of every shape: the
`null`, string and number entries are gone, the object entry is mapped
recursively and the boolean entry survives unchanged. -/
theorem spec_c10_prop_filtering :
    (∀ (fuel : Nat) (heap : Heap) (seen : List Nat) (ps : List (String × JVal))
       (l : List (String × PropVal)) (h' : Heap),
       mapProps fuel heap seen ps = some (l, h') →
       l.map Prod.fst = (ps.filter (fun e => isKept e.2)).map Prod.fst
       ∧ List.Forall₂ (fun (e : String × JVal) (o : String × PropVal) =>
           e.1 = o.1
           ∧ (∀ b, e.2 = .jbool b → o.2 = .pbool b)
           ∧ (∀ a, e.2 = .obj a → ∃ n, o.2 = .pnode n))
         (ps.filter (fun e => isKept e.2)) l)
    ∧ mapSchema 2 propsHeap [] 0 =
        some (.mk (some (.single "object"))
          (.mapped [("b", .pnode numOut), ("c", .pbool false)]) .noItems none none none,
          propsHeap) := by
  refine ⟨?_, rfl⟩
  intro fuel heap seen ps
  induction ps generalizing heap with
  | nil =>
    intro l h' h
    simp only [mapProps, mapPropsF] at h
    cases h
    simp
  | cons e rest ih =>
    obtain ⟨k, v⟩ := e
    intro l h' h
    cases v with
    | obj a =>
      simp only [mapProps, mapPropsF, optionBindEqBind, Option.bind_eq_some] at h
      obtain ⟨⟨n, h1⟩, h₁, ⟨⟨l2, h2⟩, h₂, h₃⟩⟩ := h
      cases h₃
      obtain ⟨hkeys, hfa⟩ := ih h1 l2 h2 h₂
      refine ⟨?_, ?_⟩
      · simpa [isKept] using hkeys
      · simp only [List.filter, isKept]
        refine List.Forall₂.cons ⟨rfl, ?_, ?_⟩ hfa
        · intro b hb; cases hb
        · intro a' ha'; exact ⟨n, rfl⟩
    | jbool b =>
      simp only [mapProps, mapPropsF, optionBindEqBind, Option.bind_eq_some] at h
      obtain ⟨⟨l2, h2⟩, h₂, h₃⟩ := h
      cases h₃
      obtain ⟨hkeys, hfa⟩ := ih heap l2 h2 h₂
      refine ⟨?_, ?_⟩
      · simpa [isKept] using hkeys
      · simp only [List.filter, isKept]
        refine List.Forall₂.cons ⟨rfl, ?_, ?_⟩ hfa
        · intro b' hb; cases hb; rfl
        · intro a' ha'; cases ha'
    | jnull =>
      obtain ⟨hkeys, hfa⟩ := ih heap l h' h
      exact ⟨by simpa [isKept] using hkeys, by simpa [List.filter, isKept] using hfa⟩
    | jstr s =>
      obtain ⟨hkeys, hfa⟩ := ih heap l h' h
      exact ⟨by simpa [isKept] using hkeys, by simpa [List.filter, isKept] using hfa⟩
    | jnum n =>
      obtain ⟨hkeys, hfa⟩ := ih heap l h' h
      exact ⟨by simpa [isKept] using hkeys, by simpa [List.filter, isKept] using hfa⟩

/-- Witness for C10: the pointwise correspondence instantiated on the
mixed-shape property list. -/
theorem spec_c10_prop_filtering_witness :
    [("b", PropVal.pnode numOut), ("c", PropVal.pbool false)].map Prod.fst =
      (propsList.filter (fun e => isKept e.2)).map Prod.fst :=
  (spec_c10_prop_filtering.1 1 propsHeap [0] propsList
    [("b", .pnode numOut), ("c", .pbool false)] propsHeap rfl).1

/-! ## Decimal rendering is injective

The collision loop appends `_${counter}` with JavaScript's decimal number
rendering, embedded as `Nat.repr`.  The collision-freedom argument needs
distinct counters to give distinct suffixes, so we prove `Nat.repr`
injective by exhibiting a decoder. -/

/-- Reference big-endian digit rendering of a natural number. -/
def toDigitsAux (n : Nat) : List Char :=
  if h : n < 10 then [Nat.digitChar n]
  else toDigitsAux (n / 10) ++ [Nat.digitChar (n % 10)]
decreasing_by exact Nat.div_lt_self (by omega) (by omega)

lemma toDigitsCore_eq_aux : ∀ (fuel n : Nat) (ds : List Char), n < 10 ^ (fuel + 1) →
    Nat.toDigitsCore 10 (fuel + 1) n ds = toDigitsAux n ++ ds := by
  intro fuel
  induction fuel with
  | zero =>
    intro n ds h
    have h10 : n < 10 := by simpa using h
    have hz : n / 10 = 0 := Nat.div_eq_of_lt h10
    simp [Nat.toDigitsCore, hz, toDigitsAux, h10, Nat.mod_eq_of_lt h10]
  | succ fuel ih =>
    intro n ds h
    by_cases h10 : n < 10
    · have hz : n / 10 = 0 := Nat.div_eq_of_lt h10
      simp [Nat.toDigitsCore, hz, toDigitsAux, h10, Nat.mod_eq_of_lt h10]
    · have hz : ¬ n / 10 = 0 := by
        rw [Nat.div_eq_zero_iff (by omega)]
        omega
      have hdiv : n / 10 < 10 ^ (fuel + 1) := by
        rw [Nat.div_lt_iff_lt_mul (by omega)]
        calc n < 10 ^ (fuel + 1 + 1) := h
        _ = 10 ^ (fuel + 1) * 10 := by ring
      have hstep : Nat.toDigitsCore 10 (fuel + 1 + 1) n ds
          = Nat.toDigitsCore 10 (fuel + 1) (n / 10) ((n % 10).digitChar :: ds) := by
        conv_lhs => rw [Nat.toDigitsCore]
        simp only [hz, if_false]
      rw [hstep, ih (n / 10) _ hdiv]
      conv_rhs => rw [toDigitsAux, dif_neg h10]
      simp

/-- Decimal decoder, a left inverse of the digit rendering. -/
def decodeDigits (l : List Char) : Nat :=
  l.foldl (fun a c => 10 * a + (c.toNat - 48)) 0

lemma digitChar_toNat_sub (d : Nat) (h : d < 10) : (Nat.digitChar d).toNat - 48 = d := by
  interval_cases d <;> rfl

lemma decode_toDigitsAux : ∀ n : Nat, decodeDigits (toDigitsAux n) = n := by
  intro n
  induction n using Nat.strong_induction_on with
  | _ n ih =>
    by_cases h : n < 10
    · rw [toDigitsAux, dif_pos h]
      simp [decodeDigits, digitChar_toNat_sub n h]
    · rw [toDigitsAux, dif_neg h]
      have hd : n / 10 < n := Nat.div_lt_self (by omega) (by omega)
      have hm : n % 10 < 10 := Nat.mod_lt n (by omega)
      simp only [decodeDigits, List.foldl_append, List.foldl_cons, List.foldl_nil]
      rw [← decodeDigits, ih (n / 10) hd, digitChar_toNat_sub _ hm]
      omega

lemma repr_eq_toDigitsAux (n : Nat) : Nat.repr n = (toDigitsAux n).asString := by
  have hb : n < 10 ^ (n + 1) :=
    lt_of_lt_of_le (Nat.lt_pow_self (by omega) n) (Nat.pow_le_pow_right (by omega) (Nat.le_succ n))
  unfold Nat.repr Nat.toDigits
  rw [toDigitsCore_eq_aux n n [] hb, List.append_nil]

lemma natRepr_injective : ∀ m n : Nat, Nat.repr m = Nat.repr n → m = n := by
  intro m n h
  rw [repr_eq_toDigitsAux, repr_eq_toDigitsAux] at h
  have hdata : toDigitsAux m = toDigitsAux n := by
    have := congrArg String.data h
    simpa [List.asString] using this
  have := congrArg decodeDigits hdata
  simpa [decode_toDigitsAux] using this

/-! ## Tool-name sanitization and the collision loop -/

/-- A character the sanitizer keeps: `[a-z0-9_-]` case-insensitively (the
literal-dot replace is subsumed, `'.'` being outside this class). -/
def allowedChar (c : Char) : Bool :=
  ('a' ≤ c ∧ c ≤ 'z') ∨ ('A' ≤ c ∧ c ≤ 'Z') ∨ ('0' ≤ c ∧ c ≤ '9') ∨ c = '_' ∨ c = '-'

/-- Embeds `baseName.replace(/\./g, '_').replace(/[^a-z0-9_-]/gi, '_')`. -/
def sanitizeName (s : String) : String :=
  ⟨s.data.map (fun c => if allowedChar c then c else '_')⟩

/-- The k-th name the collision loop tries: the base itself, then
`base_1`, `base_2`, ... -/
def candidate (base : String) : Nat → String
  | 0 => base
  | k + 1 => base ++ "_" ++ Nat.repr (k + 1)

lemma candidate_length_pos (base : String) (k : Nat) :
    (candidate base (k + 1)).length = base.length + 1 + (Nat.repr (k + 1)).length := by
  simp only [candidate, String.length_append]
  have : ("_" : String).length = 1 := rfl
  omega

lemma candidate_injective (base : String) :
    ∀ i j, candidate base i = candidate base j → i = j := by
  have hz : ∀ j, candidate base 0 ≠ candidate base (j + 1) := by
    intro j h
    have := congrArg String.length h
    rw [candidate_length_pos] at this
    simp [candidate] at this
    omega
  intro i j h
  match i, j with
  | 0, 0 => rfl
  | 0, j + 1 => exact absurd h (hz j)
  | i + 1, 0 => exact absurd h.symm (hz i)
  | i + 1, j + 1 =>
    have hdata : base.data ++ ('_' :: (Nat.repr (i + 1)).data)
        = base.data ++ ('_' :: (Nat.repr (j + 1)).data) := by
      have := congrArg String.data h
      simpa [candidate, String.data_append, List.append_assoc] using this
    have hrepr : (Nat.repr (i + 1)).data = (Nat.repr (j + 1)).data := by
      have h1 := List.append_cancel_left hdata
      simpa using h1
    have := natRepr_injective _ _ (String.ext hrepr)
    omega

/-- Embeds the `while (usedNames.has(finalToolName))` loop: try candidates
in order until one is not used, with enough fuel that the fallback (return
the last candidate unchecked) is never reached. -/
def pickNameGo (used : List String) (base : String) : Nat → Nat → String
  | 0, k => candidate base k
  | fuel + 1, k =>
    if candidate base k ∈ used then pickNameGo used base fuel (k + 1)
    else candidate base k

/-- The final tool name for a sanitized base given the set of names already
assigned in this run. -/
def pickName (used : List String) (base : String) : String :=
  pickNameGo used base (used.length + 1) 0

lemma pickNameGo_char (used : List String) (base : String) :
    ∀ (fuel k : Nat), (∃ j, k ≤ j ∧ j < k + fuel ∧ candidate base j ∉ used) →
    ∃ j, k ≤ j ∧ candidate base j ∉ used ∧
      (∀ i, k ≤ i → i < j → candidate base i ∈ used) ∧
      pickNameGo used base fuel k = candidate base j := by
  intro fuel
  induction fuel with
  | zero =>
    intro k ⟨j, h1, h2, _⟩
    omega
  | succ fuel ih =>
    intro k ⟨j, h1, h2, h3⟩
    by_cases hc : candidate base k ∈ used
    · have hjk : j ≠ k := by rintro rfl; exact h3 hc
      obtain ⟨j', hj1, hj2, hj3, hj4⟩ := ih (k + 1) ⟨j, by omega, by omega, h3⟩
      refine ⟨j', by omega, hj2, ?_, ?_⟩
      · intro i hik hij
        rcases Nat.eq_or_lt_of_le hik with rfl | hik'
        · exact hc
        · exact hj3 i hik' hij
      · simp [pickNameGo, hc, hj4]
    · exact ⟨k, Nat.le_refl k, hc, fun i h1 h2 => by omega, by simp [pickNameGo, hc]⟩

lemma exists_fresh_candidate (used : List String) (base : String) :
    ∃ j, j < used.length + 1 ∧ candidate base j ∉ used := by
  by_contra hall
  push_neg at hall
  have hsub : ((List.range (used.length + 1)).map (candidate base)) ⊆ used := by
    intro x hx
    simp only [List.mem_map, List.mem_range] at hx
    obtain ⟨j, hj, rfl⟩ := hx
    exact hall j hj
  have hnd : ((List.range (used.length + 1)).map (candidate base)).Nodup :=
    (List.nodup_range _).map (fun a b h => candidate_injective base a b h)
  have := (hnd.subperm hsub).length_le
  simp at this

/-- `pickName` (the loop in `extractToolsFromApi`) returns the first unused
candidate: it is itself unused, every earlier candidate is used, and when
the base itself is free it is returned unchanged. -/
theorem pickName_spec (used : List String) (base : String) :
    pickName used base ∉ used ∧
    (∃ j, candidate base j = pickName used base ∧
      ∀ i, i < j → candidate base i ∈ used) ∧
    (base ∉ used → pickName used base = base) := by
  obtain ⟨j0, hj0, hfree⟩ := exists_fresh_candidate used base
  obtain ⟨j, -, hj2, hj3, hj4⟩ :=
    pickNameGo_char used base (used.length + 1) 0 ⟨j0, by omega, by omega, hfree⟩
  rw [pickName, hj4]
  refine ⟨hj2, ⟨j, rfl, fun i hij => hj3 i (by omega) hij⟩, ?_⟩
  intro hbase
  cases j with
  | zero => rfl
  | succ j => exact absurd (hj3 0 (by omega) (by omega)) hbase

/-! ## The document model and `extractToolsFromApi` -/

/-- HTTP methods in the fixed iteration order of
`Object.values(OpenAPIV3.HttpMethods)`. -/
inductive Method where
  | get | put | post | delete | options | head | patch | trace
deriving DecidableEq, Repr

/-- The canonical method iteration order of the extraction loop. -/
def methodOrder : List Method :=
  [.get, .put, .post, .delete, .options, .head, .patch, .trace]

/-- Lower-case method name. -/
def Method.toStr : Method → String
  | .get => "get" | .put => "put" | .post => "post" | .delete => "delete"
  | .options => "options" | .head => "head" | .patch => "patch" | .trace => "trace"

/-- `method.toUpperCase()` for the default description. -/
def Method.upper : Method → String
  | .get => "GET" | .put => "PUT" | .post => "POST" | .delete => "DELETE"
  | .options => "OPTIONS" | .head => "HEAD" | .patch => "PATCH" | .trace => "TRACE"

/-- One security requirement: scheme name to scopes. -/
abbrev SecurityRequirement := List (String × List String)

/-- The `security` field of an operation: absent (`undefined`), explicitly
`null`, or an array (possibly empty). -/
inductive SecField where
  | absent
  | snull
  | sarr (l : List SecurityRequirement)
deriving DecidableEq, Repr

/-- An OpenAPI parameter; `loc` is the source's `in` field.  The schema, when
present, is a pointer into the schema heap (OpenAPI schema objects are
objects). -/
structure Param where
  name : String := ""
  loc : String := ""
  required : Bool := false
  schema : Option Nat := none
  description : Option String := none
deriving DecidableEq, Repr

/-- A media-type object (`content` map entry). -/
structure MediaObj where
  schema : Option Nat := none
deriving DecidableEq, Repr

/-- A request body: description, ordered `content` entries, required flag. -/
structure RequestBody where
  description : Option String := none
  content : Option (List (String × MediaObj)) := none
  required : Bool := false
deriving DecidableEq, Repr

/-- An operation object, with the fields the extractor reads. -/
structure Operation where
  xMcp : Option XVal := none
  operationId : Option String := none
  summary : Option String := none
  description : Option String := none
  parameters : Option (List Param) := none
  requestBody : Option RequestBody := none
  security : SecField := .absent
deriving Repr

/-- A path item: its own `x-mcp` value, path-level parameters, and the
operations under it keyed by method. -/
structure PathItem where
  xMcp : Option XVal := none
  parameters : Option (List Param) := none
  ops : List (Method × Operation) := []
deriving Repr

/-- The document: root `x-mcp`, global security, and the ordered path
entries (an entry's path item may be missing, as `Object.entries` can
surface explicitly-null members). -/
structure Api where
  xMcp : Option XVal := none
  security : Option (List SecurityRequirement) := none
  paths : Option (List (String × Option PathItem)) := none
deriving Repr

/-- `pathItem[method]`. -/
def getOp (pi : PathItem) (m : Method) : Option Operation :=
  (pi.ops.find? (fun e => decide (e.1 = m))).map (·.2)

/-- JavaScript `a || b` on an optional string and a string default: the
empty string is falsy. -/
def jsOr (a : Option String) (b : String) : String :=
  match a with
  | some s => if s = "" then b else s
  | none => b

/-- JavaScript `a || b` on two optional strings. -/
def strOrD (a b : Option String) : Option String :=
  match a with
  | some s => if s = "" then b else some s
  | none => b

/-- JavaScript keyed insertion (`Map.set`, object key assignment): replace
in place when the key exists, append otherwise. -/
def assocSet {α : Type} (m : List (String × α)) (k : String) (v : α) : List (String × α) :=
  if m.any (fun e => decide (e.1 = k)) then
    m.map (fun e => if e.1 = k then (k, v) else e)
  else m ++ [(k, v)]

/-- Lookup in such a keyed list. -/
def assocGet {α : Type} (m : List (String × α)) (k : String) : Option α :=
  (m.find? (fun e => decide (e.1 = k))).map (·.2)

/-- Fold one parameter into the `parameterMap` (nameless parameters are
skipped by the `if (param.name)` guard). -/
def addParam (m : List (String × Param)) (p : Param) : List (String × Param) :=
  if p.name = "" then m else assocSet m p.name p

/-- The parameter merge of `generateInputSchemaAndDetails`: seed with
path-level parameters, then set each operation-level parameter, then take
the map's values in insertion order. -/
def mergeParameters (pathParams opParams : List Param) : List Param :=
  (opParams.foldl addParam (pathParams.foldl addParam [])).map (·.2)

/-- Description of a mapped node. -/
def ONode.descr : ONode → Option String
  | .mk _ _ _ d _ _ => d

/-- Replace the description of a mapped node. -/
def ONode.withDescr : ONode → Option String → ONode
  | .mk t p i _ ti r, d => .mk t p i d ti r

/-- A top-level `mapOpenApiSchemaToJsonSchema(schema)` call: fresh visited
set, and fuel that `mapSchema_isSome` proves sufficient (the `getD`
fallback is unreachable). -/
def mapSchemaTop (heap : Heap) (a : Nat) : ONode × Heap :=
  (mapSchema (heap.length + 1) heap [] a).getD (genericObject, heap)

/-- The derived input schema: always `type: 'object'` with a `properties`
map, and a `required` list only when non-empty (the
`...(required.length > 0 && { required })` spread). -/
structure InputSchema where
  properties : List (String × ONode)
  required : Option (List String)

/-- Accumulate one merged parameter into the derived schema: parameters
lacking a name or schema contribute nothing; otherwise the parameter's
schema is mapped (threading the heap) and its description, if any,
overrides the mapped one. -/
def paramStep (st : List (String × ONode) × List String × Heap) (p : Param) :
    List (String × ONode) × List String × Heap :=
  let (props, req, h) := st
  if p.name = "" then st
  else
    match p.schema with
    | none => st
    | some a =>
      let nh := mapSchemaTop h a
      let n := nh.1.withDescr (strOrD p.description nh.1.descr)
      (assocSet props p.name n, req ++ (if p.required then [p.name] else []), nh.2)

/-- Embeds `generateInputSchemaAndDetails`: merge the parameters, derive a
property (and possibly a `required` entry) from each named/schematized one,
then handle the request body — preferring an `application/json` schema,
falling back to a synthetic string-typed property for any other first
content type. -/
def generateInputSchemaAndDetails (heap : Heap) (operation : Operation) (pathItem : PathItem) :
    InputSchema × List Param × Option String × Heap :=
  let allParameters := mergeParameters (pathItem.parameters.getD []) (operation.parameters.getD [])
  let st := allParameters.foldl paramStep ([], [], heap)
  let props1 := st.1
  let req1 := st.2.1
  let heap1 := st.2.2
  let finish := fun (props : List (String × ONode)) (req : List String)
      (ct : Option String) (h : Heap) =>
    (InputSchema.mk props (if req.length > 0 then some req else none), allParameters, ct, h)
  match operation.requestBody with
  | none => finish props1 req1 none heap1
  | some rb =>
    let jsonSchemaRef := (assocGet (rb.content.getD []) "application/json").bind (·.schema)
    match jsonSchemaRef with
    | some a =>
      let nh := mapSchemaTop heap1 a
      let n := nh.1.withDescr
        (strOrD rb.description (strOrD nh.1.descr (some "The JSON request body.")))
      finish (assocSet props1 "requestBody" n)
        (req1 ++ (if rb.required then ["requestBody"] else []))
        (some "application/json") nh.2
    | none =>
      match rb.content.getD [] with
      | [] => finish props1 req1 none heap1
      | (contentType, _) :: _ =>
        let n : ONode := .mk (some (.single "string")) .noProps .noItems
          (some (jsOr rb.description ("Request body (content type: " ++ contentType ++ ")")))
          none none
        finish (assocSet props1 "requestBody" n)
          (req1 ++ (if rb.required then ["requestBody"] else []))
          (some contentType) heap1

/-- Embeds `operation.security === null ? globalSecurity : operation.security
|| globalSecurity`: an explicit array (even empty, which is truthy in
JavaScript) wins; `null` and absent fall back to the global array. -/
def resolveSecurity (sec : SecField) (globalSec : List SecurityRequirement) :
    List SecurityRequirement :=
  match sec with
  | .snull => globalSec
  | .absent => globalSec
  | .sarr l => l

/-- Modelled from the spec: `generateOperationId` is defined in
`src/utils/code-gen.ts`, which is not in the repository snapshot.  Spec
section 4.2 says a missing operation identifier is synthesized
deterministically from method + path, stripping placeholder braces and
joining segments; no settled claim depends on its exact output. -/
def generateOperationId (m : Method) (path : String) : String :=
  m.toStr ++ String.join
    ((path.splitOn "/").map (fun seg => ⟨seg.data.filter (fun c => c ≠ '{' ∧ c ≠ '}')⟩))

/-- One emitted tool descriptor. -/
structure McpToolDefinition where
  name : String
  description : String
  inputSchema : InputSchema
  method : Method
  pathTemplate : String
  parameters : List Param
  executionParameters : List (String × String)
  requestBodyContentType : Option String
  securityRequirements : List SecurityRequirement
  operationId : String

lemma assocAny_iff {α : Type} (m : List (String × α)) (k : String) :
    m.any (fun e => decide (e.1 = k)) = true ↔ k ∈ m.map (·.1) := by
  simp [List.any_eq_true, List.mem_map]

lemma assocSet_keys_of_mem {α : Type} (m : List (String × α)) (k : String) (v : α)
    (h : k ∈ m.map (·.1)) : (assocSet m k v).map (·.1) = m.map (·.1) := by
  rw [assocSet, if_pos ((assocAny_iff m k).mpr h), List.map_map]
  apply List.map_congr_left
  intro e _
  by_cases he : e.1 = k
  · simp [he]
  · simp [he]

lemma assocSet_keys_of_not_mem {α : Type} (m : List (String × α)) (k : String) (v : α)
    (h : k ∉ m.map (·.1)) : (assocSet m k v).map (·.1) = m.map (·.1) ++ [k] := by
  rw [assocSet, if_neg (fun hc => h ((assocAny_iff m k).mp hc))]
  simp

lemma assocGet_of_not_mem {α : Type} (m : List (String × α)) (k : String)
    (h : k ∉ m.map (·.1)) : assocGet m k = none := by
  rw [assocGet]
  have hf : m.find? (fun e => decide (e.1 = k)) = none := by
    rw [List.find?_eq_none]
    intro e he hdec
    exact h (List.mem_map.mpr ⟨e, he, by simpa using hdec⟩)
  rw [hf]
  rfl

lemma find?_map_replace_other {α : Type} (m : List (String × α)) (k k' : String) (v : α)
    (h : k' ≠ k) :
    (m.map (fun e => if e.1 = k then (k, v) else e)).find? (fun e => decide (e.1 = k'))
      = m.find? (fun e => decide (e.1 = k')) := by
  induction m with
  | nil => rfl
  | cons e rest ih =>
    by_cases he : e.1 = k
    · have h1 : (decide ((k, v).1 = k')) = false := by simp; exact fun hc => h hc.symm
      have h2 : (decide (e.1 = k')) = false := by
        simp only [he]; simp; exact fun hc => h hc.symm
      simp only [List.map_cons, if_pos he, List.find?, h1, h2]
      exact ih
    · simp only [List.map_cons, if_neg he, List.find?]
      cases hd : (decide (e.1 = k')) with
      | true => rfl
      | false => exact ih

lemma assocGet_map_replace {α : Type} (m : List (String × α)) (k : String) (v : α) :
    assocGet (m.map (fun e => if e.1 = k then (k, v) else e)) k
      = if k ∈ m.map (·.1) then some v else none := by
  induction m with
  | nil => rfl
  | cons e rest ih =>
    by_cases he : e.1 = k
    · simp [assocGet, List.find?, he]
    · simp only [List.map_cons, if_neg he]
      rw [assocGet, List.find?]
      simp only [show (decide (e.1 = k)) = false from by simp [he]]
      rw [← assocGet, ih]
      have hke : ¬ (k = e.1) := fun hc => he hc.symm
      by_cases hk : k ∈ List.map (fun x => x.1) rest <;>
        simp [hk, List.mem_cons, hke]

lemma assocGet_set_self {α : Type} (m : List (String × α)) (k : String) (v : α) :
    assocGet (assocSet m k v) k = some v := by
  by_cases h : k ∈ m.map (·.1)
  · rw [assocSet, if_pos ((assocAny_iff m k).mpr h), assocGet_map_replace, if_pos h]
  · rw [assocSet, if_neg (fun hc => h ((assocAny_iff m k).mp hc))]
    rw [assocGet, List.find?_append]
    have hf : m.find? (fun e => decide (e.1 = k)) = none := by
      rw [List.find?_eq_none]
      intro e he hdec
      exact h (List.mem_map.mpr ⟨e, he, by simpa using hdec⟩)
    rw [hf]
    simp [List.find?]

lemma assocGet_set_other {α : Type} (m : List (String × α)) (k k' : String) (v : α)
    (h : k' ≠ k) : assocGet (assocSet m k v) k' = assocGet m k' := by
  rw [assocSet]
  split
  · rw [assocGet, find?_map_replace_other m k k' v h, assocGet]
  · rw [assocGet, List.find?_append]
    have hf : List.find? (fun e => decide (e.1 = k')) [(k, v)] = none := by
      have hkk : ¬ (k = k') := fun hc => h hc.symm
      simp [List.find?, hkk]
    rw [hf, assocGet]
    cases m.find? (fun e => decide (e.1 = k')) <;> rfl

/-- The last parameter named `nm` in declaration order (later declarations
shadow earlier ones under `Map.set`). -/
def lastNamed (l : List Param) (nm : String) : Option Param :=
  l.foldl (fun acc p => if p.name = nm then some p else acc) none

lemma lastNamed_foldl (l : List Param) (nm : String) :
    ∀ acc, l.foldl (fun acc p => if p.name = nm then some p else acc) acc
      = match lastNamed l nm with | some q => some q | none => acc := by
  induction l with
  | nil => intro acc; rfl
  | cons p rest ih =>
    intro acc
    have hcons : lastNamed (p :: rest) nm
        = rest.foldl (fun acc q => if q.name = nm then some q else acc)
            (if p.name = nm then some p else none) := rfl
    rw [List.foldl_cons, ih, hcons, ih]
    cases lastNamed rest nm <;> by_cases hp : p.name = nm <;> simp [hp]

lemma lastNamed_cons (p : Param) (rest : List Param) (nm : String) :
    lastNamed (p :: rest) nm
      = match lastNamed rest nm with
        | some q => some q
        | none => if p.name = nm then some p else none := by
  have hcons : lastNamed (p :: rest) nm
      = rest.foldl (fun acc q => if q.name = nm then some q else acc)
          (if p.name = nm then some p else none) := rfl
  rw [hcons, lastNamed_foldl]

lemma assocSet_mem {α : Type} {e : String × α} (m : List (String × α)) (k : String) (v : α)
    (h : e ∈ assocSet m k v) : e = (k, v) ∨ e ∈ m := by
  rw [assocSet] at h
  split at h
  · obtain ⟨e', he', heq⟩ := List.mem_map.mp h
    by_cases hc : e'.1 = k
    · left; rw [← heq]; simp [hc]
    · right; rw [← heq]; simpa [hc] using he'
  · rcases List.mem_append.mp h with hm | hs
    · exact Or.inr hm
    · exact Or.inl (by simpa using hs)

lemma mergeFold_get : ∀ (l : List Param) (m : List (String × Param)) (nm : String),
    nm ≠ "" →
    assocGet (l.foldl addParam m) nm
      = match lastNamed l nm with | some q => some q | none => assocGet m nm := by
  intro l
  induction l with
  | nil => intro m nm _; rfl
  | cons p rest ih =>
    intro m nm hnm
    rw [List.foldl_cons, ih (addParam m p) nm hnm, lastNamed_cons]
    cases hl : lastNamed rest nm with
    | some q => rfl
    | none =>
      simp only
      by_cases hp : p.name = nm
      · have hp0 : ¬ (p.name = "") := by rw [hp]; exact hnm
        rw [addParam, if_neg hp0, if_pos hp, hp, assocGet_set_self]
      · rw [if_neg hp]
        by_cases hp0 : p.name = ""
        · rw [addParam, if_pos hp0]
        · rw [addParam, if_neg hp0, assocGet_set_other _ _ _ _ (fun hc => hp hc.symm)]

lemma mergeFold_values_sub : ∀ (l : List Param) (m : List (String × Param))
    (e : String × Param), e ∈ l.foldl addParam m → e.2 ∈ l ∨ e ∈ m := by
  intro l
  induction l with
  | nil => intro m e h; exact Or.inr h
  | cons p rest ih =>
    intro m e h
    rw [List.foldl_cons] at h
    rcases ih (addParam m p) e h with hv | hm
    · exact Or.inl (List.mem_cons_of_mem p hv)
    · rw [addParam] at hm
      split at hm
      · exact Or.inr hm
      · rcases assocSet_mem m p.name p hm with rfl | hm'
        · exact Or.inl (List.mem_cons_self p rest)
        · exact Or.inr hm'

/-- Key invariant of the parameter map: every value is keyed by its own
name, and keys are distinct. -/
def KeyedInv (m : List (String × Param)) : Prop :=
  (∀ e ∈ m, e.2.name = e.1) ∧ (m.map (·.1)).Nodup

lemma addParam_keyedInv (m : List (String × Param)) (p : Param) (h : KeyedInv m) :
    KeyedInv (addParam m p) := by
  obtain ⟨hname, hnd⟩ := h
  rw [addParam]
  split
  · exact ⟨hname, hnd⟩
  · by_cases hk : p.name ∈ m.map (·.1)
    · constructor
      · intro e he
        rcases assocSet_mem m p.name p he with rfl | he'
        · rfl
        · exact hname e he'
      · rw [assocSet_keys_of_mem _ _ _ hk]; exact hnd
    · constructor
      · intro e he
        rcases assocSet_mem m p.name p he with rfl | he'
        · rfl
        · exact hname e he'
      · rw [assocSet_keys_of_not_mem _ _ _ hk]
        rw [List.nodup_append]
        refine ⟨hnd, List.nodup_singleton _, ?_⟩
        intro a ha hb
        rw [List.mem_singleton] at hb
        exact hk (hb ▸ ha)

lemma foldlPreserves {α β : Type} (P : α → Prop) (f : α → β → α)
    (hf : ∀ a b, P a → P (f a b)) : ∀ (l : List β) (a : α), P a → P (l.foldl f a) := by
  intro l
  induction l with
  | nil => intro a h; exact h
  | cons b rest ih => intro a h; exact ih _ (hf a b h)

lemma mergeFold_keyedInv (l : List Param) (m : List (String × Param)) (h : KeyedInv m) :
    KeyedInv (l.foldl addParam m) :=
  foldlPreserves KeyedInv addParam (fun m p => addParam_keyedInv m p) l m h

lemma keyedInv_entry_unique (m : List (String × Param)) (h : KeyedInv m)
    (e e' : String × Param) (he : e ∈ m) (he' : e' ∈ m) (hk : e.1 = e'.1) : e = e' :=
  List.inj_on_of_nodup_map h.2 he he' hk

/-- The step that builds the merged key order: a new non-empty name is
appended; an existing one keeps its position. -/
def firstKeysStep (acc : List String) (p : Param) : List String :=
  if p.name = "" ∨ p.name ∈ acc then acc else acc ++ [p.name]

lemma mergeFold_keys : ∀ (l : List Param) (m : List (String × Param)),
    (l.foldl addParam m).map (·.1) = l.foldl firstKeysStep (m.map (·.1)) := by
  intro l
  induction l with
  | nil => intro m; rfl
  | cons p rest ih =>
    intro m
    rw [List.foldl_cons, List.foldl_cons, ih, addParam, firstKeysStep]
    by_cases hp0 : p.name = ""
    · rw [if_pos hp0, if_pos (Or.inl hp0)]
    · rw [if_neg hp0]
      by_cases hk : p.name ∈ m.map (·.1)
      · rw [assocSet_keys_of_mem _ _ _ hk, if_pos (Or.inr hk)]
      · rw [assocSet_keys_of_not_mem _ _ _ hk, if_neg (by push_neg; exact ⟨hp0, hk⟩)]

lemma merge_eq_append_fold (pp ops : List Param) :
    mergeParameters pp ops = ((pp ++ ops).foldl addParam []).map (·.2) := by
  rw [mergeParameters, List.foldl_append]

lemma merged_names_eq_keys (pp ops : List Param) :
    (mergeParameters pp ops).map (·.name) = ((pp ++ ops).foldl addParam []).map (·.1) := by
  rw [merge_eq_append_fold, List.map_map]
  have hinv := mergeFold_keyedInv (pp ++ ops) [] ⟨by simp, by simp⟩
  exact List.map_congr_left (fun e he => hinv.1 e he)

lemma paramFold_req : ∀ (params : List Param) (props : List (String × ONode))
    (req : List String) (heap : Heap),
    (params.foldl paramStep (props, req, heap)).2.1
      = req ++ (params.filter
          (fun p => !(p.name == "") && p.schema.isSome && p.required)).map (·.name) := by
  intro params
  induction params with
  | nil => intro props req heap; simp
  | cons p rest ih =>
    intro props req heap
    rw [List.foldl_cons, paramStep]
    by_cases hp0 : p.name = ""
    · have hb : (p.name == "") = true := beq_iff_eq.mpr hp0
      simp only [if_pos hp0]
      rw [ih]
      simp [List.filter_cons, hb]
    · have hb : (p.name == "") = false := beq_eq_false_iff_ne.mpr hp0
      simp only [if_neg hp0]
      cases hs : p.schema with
      | none =>
        simp only
        rw [ih]
        simp [List.filter_cons, hb, hs]
      | some a =>
        simp only
        rw [ih]
        cases hr : p.required
        · simp [List.filter_cons, hb, hs, hr]
        · simp [List.filter_cons, hb, hs, hr]

/-- The per-operation body of the extraction loop, threading the output
list, the used-name set, and the schema heap.  An inclusion-filter
exception is caught: the operation is then skipped exactly when the
configured default is exclude (`if (!defaultInclude) continue`). -/
def processOperation (rootX : Option XVal) (globalSec : List SecurityRequirement)
    (defaultInclude : Bool) (path : String) (pi : PathItem) (m : Method)
    (operation : Operation) (st : List McpToolDefinition × List String × Heap) :
    List McpToolDefinition × List String × Heap :=
  let (tools, usedNames, heap) := st
  let included :=
    match shouldIncludeOperationForMcp operation.xMcp pi.xMcp rootX defaultInclude with
    | .ok b => b
    | .error _ => defaultInclude
  if !included then st
  else
    let baseNameRaw := jsOr operation.operationId (generateOperationId m path)
    if baseNameRaw = "" then st
    else
      let baseName := sanitizeName baseNameRaw
      let finalToolName := pickName usedNames baseName
      let description :=
        jsOr operation.description
          (jsOr operation.summary ("Executes " ++ m.upper ++ " " ++ path))
      let gen := generateInputSchemaAndDetails heap operation pi
      let parameters := gen.2.1
      ( tools ++ [{ name := finalToolName
                  , description := description
                  , inputSchema := gen.1
                  , method := m
                  , pathTemplate := path
                  , parameters := parameters
                  , executionParameters := parameters.map (fun p => (p.name, p.loc))
                  , requestBodyContentType := gen.2.2.1
                  , securityRequirements := resolveSecurity operation.security globalSec
                  , operationId := baseName }]
      , finalToolName :: usedNames
      , gen.2.2.2 )

lemma lastNamed_name : ∀ (l : List Param) (nm : String) (q : Param),
    lastNamed l nm = some q → q.name = nm := by
  intro l
  induction l with
  | nil => intro nm q h; cases h
  | cons p rest ih =>
    intro nm q h
    rw [lastNamed_cons] at h
    cases hl : lastNamed rest nm with
    | some q' =>
      rw [hl] at h
      cases h
      exact ih nm q hl
    | none =>
      rw [hl] at h
      simp only at h
      split at h
      · cases h; assumption
      · cases h

lemma merged_value_spec (pp ops : List Param) (nm : String) (q : Param) (hnm : nm ≠ "")
    (hlast : lastNamed (pp ++ ops) nm = some q) :
    q ∈ mergeParameters pp ops ∧ ∀ p ∈ mergeParameters pp ops, p.name = nm → p = q := by
  have hM := merge_eq_append_fold pp ops
  have hget : assocGet ((pp ++ ops).foldl addParam []) nm = some q := by
    rw [mergeFold_get (pp ++ ops) [] nm hnm, hlast]
  rw [assocGet] at hget
  obtain ⟨e, hfind, he2⟩ : ∃ e, ((pp ++ ops).foldl addParam []).find?
      (fun e => decide (e.1 = nm)) = some e ∧ e.2 = q := by
    cases hf : ((pp ++ ops).foldl addParam []).find? (fun e => decide (e.1 = nm)) with
    | none => rw [hf] at hget; cases hget
    | some e =>
      rw [hf] at hget
      exact ⟨e, rfl, Option.some.inj hget⟩
  have heM : e ∈ (pp ++ ops).foldl addParam [] := List.mem_of_find?_eq_some hfind
  have he1 : e.1 = nm := by simpa using List.find?_some hfind
  have hinv := mergeFold_keyedInv (pp ++ ops) [] ⟨by simp, by simp⟩
  constructor
  · rw [hM]
    exact List.mem_map.mpr ⟨e, heM, he2⟩
  · intro p hp hpnm
    rw [hM] at hp
    obtain ⟨e', he'M, he'2⟩ := List.mem_map.mp hp
    have he'1 : e'.1 = nm := by rw [← hinv.1 e' he'M, he'2, hpnm]
    have hee : e' = e := keyedInv_entry_unique _ hinv e' e he'M heM (he'1.trans he1.symm)
    rw [← he'2, hee, he2]

/-- Path-level parameter for the concrete override example. -/
def c5PathParam : Param := { name := "x", loc := "query", schema := some 0 }

/-- Same-named operation-level parameter (required, different schema). -/
def c5OpParam : Param := { name := "x", loc := "query", required := true, schema := some 1 }

/-- Heap for the override example: the path parameter's schema is a string,
the operation parameter's a number. -/
def c5Heap : Heap := [{ type := some (.single "string") }, { type := some (.single "number") }]

/-- Path item declaring the path-level `x`. -/
def c5Pi : PathItem := { parameters := some [c5PathParam] }

/-- Operation declaring the overriding `x`. -/
def c5Op : Operation := { parameters := some [c5OpParam] }

/-- C5: the merged parameter list is the path-level seed extended by the
operation-level parameters — a new name is appended, an existing name is
replaced in place, so the key order is first-occurrence order over path
then operation parameters (conjunct 1); the surviving entry under a name is
the last same-named declaration, operation-level winning over path-level
(conjunct 2); the derived required-flag for that name is the surviving
parameter's (conjunct 3); and on a concrete document the schema property
for an overridden name is the operation-level parameter's mapped schema
with its required-flag (conjunct 4). -/
theorem spec_c5_param_merge :
    (∀ pp ops : List Param, (mergeParameters pp ops).map (·.name)
        = (pp ++ ops).foldl firstKeysStep [])
    ∧ (∀ (pp ops : List Param) (nm : String) (q : Param), nm ≠ "" →
        lastNamed (pp ++ ops) nm = some q →
        q ∈ mergeParameters pp ops ∧ ∀ p ∈ mergeParameters pp ops, p.name = nm → p = q)
    ∧ (∀ (heap : Heap) (operation : Operation) (pathItem : PathItem)
        (pp ops : List Param) (nm : String) (q : Param),
        pathItem.parameters = some pp → operation.parameters = some ops →
        operation.requestBody = none → nm ≠ "" →
        lastNamed (pp ++ ops) nm = some q → q.schema.isSome →
        (nm ∈ ((generateInputSchemaAndDetails heap operation pathItem).1.required.getD [])
          ↔ q.required = true))
    ∧ generateInputSchemaAndDetails c5Heap c5Op c5Pi
        = (⟨[("x", numOut)], some ["x"]⟩, [c5OpParam], none, c5Heap) := by
  refine ⟨?_, fun pp ops nm q hnm hlast => merged_value_spec pp ops nm q hnm hlast, ?_, rfl⟩
  · intro pp ops
    rw [merged_names_eq_keys, mergeFold_keys]
    rfl
  · intro heap operation pathItem pp ops nm q hpp hops hrb hnm hlast hsch
    have hgetD : ∀ (l : List String), ((if l.length > 0 then some l else none).getD []) = l := by
      intro l; cases l <;> simp
    simp only [generateInputSchemaAndDetails, hpp, hops, hrb, hgetD]
    rw [paramFold_req]
    simp only [List.nil_append]
    have hqname : q.name = nm := lastNamed_name _ _ _ hlast
    obtain ⟨hqmem, huniq⟩ := merged_value_spec pp ops nm q hnm hlast
    constructor
    · intro hmem
      obtain ⟨p, hpfil, hpname⟩ := List.mem_map.mp hmem
      obtain ⟨hpmem, hpred⟩ := List.mem_filter.mp hpfil
      have hpq : p = q := huniq p hpmem hpname
      rw [← hpq]
      simp only [Bool.and_eq_true] at hpred
      exact hpred.2
    · intro hreq
      refine List.mem_map.mpr ⟨q, List.mem_filter.mpr ⟨hqmem, ?_⟩, hqname⟩
      simp only [Bool.and_eq_true]
      refine ⟨⟨?_, hsch⟩, hreq⟩
      simp [hqname, hnm]

/-- Witness for C5 at the concrete override document: `x` is in the derived
required list exactly because the operation-level parameter is required. -/
theorem spec_c5_param_merge_witness :
    ("x" ∈ ((generateInputSchemaAndDetails c5Heap c5Op c5Pi).1.required.getD [])
      ↔ c5OpParam.required = true) :=
  spec_c5_param_merge.2.2.1 c5Heap c5Op c5Pi [c5PathParam] [c5OpParam] "x" c5OpParam
    rfl rfl rfl (by decide) rfl rfl

/-- The heap state after the parameter fold, which is what the request-body
schema is mapped against. -/
def paramsHeapAfter (heap : Heap) (operation : Operation) (pathItem : PathItem) : Heap :=
  ((mergeParameters (pathItem.parameters.getD []) (operation.parameters.getD [])).foldl
    paramStep ([], [], heap)).2.2

/-- Heap for the request-body example: a string schema carrying its own
description `"SCH"`. -/
def c7Heap : Heap := [{ type := some (.single "string"), description := some "SCH" }]

/-- A required JSON request body with description `"RB"` whose schema also
has a description. -/
def c7Rb : RequestBody :=
  { description := some "RB"
  , content := some [("application/json", { schema := some 0 })]
  , required := true }

/-- Operation carrying `c7Rb`. -/
def c7Op : Operation := { operationId := some "op", requestBody := some c7Rb }

/-- C7 (counterexample): with both descriptions present the synthetic
`requestBody` property ends up with the request body's description `"RB"`,
not the mapped schema's own `"SCH"` that the claim puts first — the code
evaluates `opRequestBody.description || bodySchema.description || literal`. -/
theorem spec_c7_counterexample :
    ((assocGet (generateInputSchemaAndDetails c7Heap c7Op {}).1.properties "requestBody").map
        ONode.descr) = some (some "RB")
    ∧ (some "RB" : Option String) ≠ some "SCH" :=
  ⟨rfl, by decide⟩

/-- C7 (amended): for an operation with an `application/json` request-body
schema, the input schema gains a `requestBody` property holding the mapped
schema, whose description is the request body's own description if present,
else the mapped schema's description, else the literal string
`"The JSON request body."`; `requestBody` is required iff the body is
marked required (given no parameter is itself named `requestBody`), and the
recorded content type is `application/json`. -/
theorem spec_c7_amended (heap : Heap) (operation : Operation) (pathItem : PathItem)
    (rb : RequestBody) (a : Nat)
    (hrb : operation.requestBody = some rb)
    (hjson : (assocGet (rb.content.getD []) "application/json").bind (·.schema) = some a)
    (hclash : ∀ p ∈ pathItem.parameters.getD [] ++ operation.parameters.getD [],
      p.name ≠ "requestBody") :
    assocGet (generateInputSchemaAndDetails heap operation pathItem).1.properties "requestBody"
      = some ((mapSchemaTop (paramsHeapAfter heap operation pathItem) a).1.withDescr
          (strOrD rb.description
            (strOrD (mapSchemaTop (paramsHeapAfter heap operation pathItem) a).1.descr
              (some "The JSON request body."))))
    ∧ ("requestBody" ∈ ((generateInputSchemaAndDetails heap operation pathItem).1.required.getD [])
        ↔ rb.required = true)
    ∧ (generateInputSchemaAndDetails heap operation pathItem).2.2.1 = some "application/json" := by
  have hgetD : ∀ (l : List String), ((if l.length > 0 then some l else none).getD []) = l := by
    intro l; cases l <;> simp
  have hnotreq : "requestBody" ∉
      ((mergeParameters (pathItem.parameters.getD []) (operation.parameters.getD [])).foldl
        paramStep ([], [], heap)).2.1 := by
    rw [paramFold_req]
    intro hmem
    simp only [List.nil_append] at hmem
    obtain ⟨p, hpfil, hpname⟩ := List.mem_map.mp hmem
    obtain ⟨hpmem, -⟩ := List.mem_filter.mp hpfil
    rw [merge_eq_append_fold] at hpmem
    obtain ⟨e, heM, he2⟩ := List.mem_map.mp hpmem
    rcases mergeFold_values_sub _ [] e heM with hv | hv
    · exact hclash p (he2 ▸ hv) hpname
    · cases hv
  simp only [generateInputSchemaAndDetails, hrb, hjson, paramsHeapAfter]
  refine ⟨?_, ?_⟩
  · rw [assocGet_set_self]
  · rw [hgetD]
    cases hr : rb.required
    · simp [hnotreq]
    · simp

/-- Witness for the amended C7 theorem on the concrete document: the body is
marked required, so `requestBody` is in the required list. -/
theorem spec_c7_amended_witness :
    ("requestBody" ∈ ((generateInputSchemaAndDetails c7Heap c7Op {}).1.required.getD [])
      ↔ c7Rb.required = true) :=
  (spec_c7_amended c7Heap c7Op {} c7Rb 0 rfl rfl (by intro p hp; simp [c7Op] at hp)).2.1

/-- One step of the inner method loop: look the operation up and process
it when declared. -/
def methodStep (rootX : Option XVal) (globalSec : List SecurityRequirement)
    (defaultInclude : Bool) (path : String) (pi : PathItem)
    (st : List McpToolDefinition × List String × Heap) (m : Method) :
    List McpToolDefinition × List String × Heap :=
  match getOp pi m with
  | none => st
  | some operation => processOperation rootX globalSec defaultInclude path pi m operation st

/-- One step of the outer path loop: skip missing path items, otherwise run
every method in canonical order. -/
def pathStep (rootX : Option XVal) (globalSec : List SecurityRequirement)
    (defaultInclude : Bool) (st : List McpToolDefinition × List String × Heap)
    (e : String × Option PathItem) : List McpToolDefinition × List String × Heap :=
  match e.2 with
  | none => st
  | some pi => methodOrder.foldl (methodStep rootX globalSec defaultInclude e.1 pi) st

/-- Embeds `extractToolsFromApi`: iterate path entries in declaration order
and methods in canonical order, filter, and build each tool. -/
def extractToolsFromApi (heap : Heap) (api : Api) (defaultInclude : Bool := true) :
    List McpToolDefinition :=
  match api.paths with
  | none => []
  | some entries =>
    (entries.foldl (pathStep api.xMcp (api.security.getD []) defaultInclude)
      ([], [], heap)).1

/-- The tool record `processOperation` appends for a retained operation. -/
def toolFor (globalSec : List SecurityRequirement) (path : String) (pi : PathItem)
    (m : Method) (operation : Operation) (used : List String) (heap : Heap) :
    McpToolDefinition :=
  { name := pickName used (sanitizeName (jsOr operation.operationId (generateOperationId m path)))
  , description := jsOr operation.description
      (jsOr operation.summary ("Executes " ++ m.upper ++ " " ++ path))
  , inputSchema := (generateInputSchemaAndDetails heap operation pi).1
  , method := m
  , pathTemplate := path
  , parameters := (generateInputSchemaAndDetails heap operation pi).2.1
  , executionParameters :=
      ((generateInputSchemaAndDetails heap operation pi).2.1).map (fun p => (p.name, p.loc))
  , requestBodyContentType := (generateInputSchemaAndDetails heap operation pi).2.2.1
  , securityRequirements := resolveSecurity operation.security globalSec
  , operationId := sanitizeName (jsOr operation.operationId (generateOperationId m path)) }

lemma processOperation_eq (rootX : Option XVal) (globalSec : List SecurityRequirement)
    (d : Bool) (path : String) (pi : PathItem) (m : Method) (operation : Operation)
    (tools : List McpToolDefinition) (used : List String) (heap : Heap) :
    processOperation rootX globalSec d path pi m operation (tools, used, heap)
      = if (match shouldIncludeOperationForMcp operation.xMcp pi.xMcp rootX d with
            | .ok b => b | .error _ => d) = true
          ∧ jsOr operation.operationId (generateOperationId m path) ≠ ""
        then (tools ++ [toolFor globalSec path pi m operation used heap],
              (toolFor globalSec path pi m operation used heap).name :: used,
              (generateInputSchemaAndDetails heap operation pi).2.2.2)
        else (tools, used, heap) := by
  simp only [processOperation]
  split_ifs with h1 h2 h3 <;> simp_all [toolFor]

lemma pickName_nil (base : String) : pickName [] base = base := rfl

lemma append_underscore_one (b : String) : b ++ "_" ++ "1" = b ++ "_1" :=
  String.ext (by simp [String.data_append])

lemma pickName_single (b : String) : pickName [b] b = b ++ "_1" := by
  have h0 : candidate b 0 ∈ [b] := by simp [candidate]
  have h1 : candidate b 1 ∉ [b] := by
    rw [List.mem_singleton]
    intro hc
    have hlen := congrArg String.length hc
    rw [candidate_length_pos] at hlen
    omega
  show pickNameGo [b] b 2 0 = b ++ "_1"
  rw [show (2 : Nat) = 1 + 1 from rfl]
  simp only [pickNameGo]
  rw [if_pos h0, if_neg h1]
  show b ++ "_" ++ Nat.repr 1 = b ++ "_1"
  exact append_underscore_one b

/-- The invariant carried through the extraction loop: tool names are
distinct, and every assigned name is recorded in the used-name set. -/
def NamesInv (st : List McpToolDefinition × List String × Heap) : Prop :=
  (st.1.map (·.name)).Nodup ∧ ∀ t ∈ st.1, t.name ∈ st.2.1

lemma processOperation_namesInv (rootX : Option XVal) (globalSec : List SecurityRequirement)
    (d : Bool) (path : String) (pi : PathItem) (m : Method) (operation : Operation)
    (st : List McpToolDefinition × List String × Heap) (h : NamesInv st) :
    NamesInv (processOperation rootX globalSec d path pi m operation st) := by
  obtain ⟨tools, used, heap⟩ := st
  obtain ⟨hnd, hmem⟩ := h
  rw [processOperation_eq]
  split
  · constructor
    · rw [List.map_append, List.nodup_append]
      refine ⟨hnd, List.nodup_singleton _, ?_⟩
      intro a ha hb
      simp only [List.map_cons, List.map_nil, List.mem_singleton] at hb
      obtain ⟨t, htm, htn⟩ := List.mem_map.mp ha
      have : t.name ∈ used := hmem t htm
      rw [htn, hb] at this
      exact absurd this ((pickName_spec used _).1)
    · intro t ht
      rcases List.mem_append.mp ht with h1 | h2
      · exact List.mem_cons_of_mem _ (hmem t h1)
      · rw [List.mem_singleton] at h2
        rw [h2]
        exact List.mem_cons_self _ _
  · exact ⟨hnd, hmem⟩

lemma methodStep_namesInv (rootX : Option XVal) (globalSec : List SecurityRequirement)
    (d : Bool) (path : String) (pi : PathItem)
    (st : List McpToolDefinition × List String × Heap) (m : Method) (h : NamesInv st) :
    NamesInv (methodStep rootX globalSec d path pi st m) := by
  rw [methodStep]
  cases getOp pi m with
  | none => exact h
  | some operation => exact processOperation_namesInv _ _ _ _ _ _ _ _ h

lemma pathStep_namesInv (rootX : Option XVal) (globalSec : List SecurityRequirement)
    (d : Bool) (st : List McpToolDefinition × List String × Heap)
    (e : String × Option PathItem) (h : NamesInv st) :
    NamesInv (pathStep rootX globalSec d st e) := by
  rw [pathStep]
  cases e.2 with
  | none => exact h
  | some pi =>
    exact foldlPreserves NamesInv _
      (fun st m hst => methodStep_namesInv rootX globalSec d e.1 pi st m hst)
      methodOrder st h

/-- A document whose two operations sanitize to the same base name. -/
def collApi : Api :=
  { paths := some [("/pets", some { ops :=
      [(.get, { operationId := some "get_pets" }),
       (.post, { operationId := some "get.pets" })] })] }

/-- C3: tool names are pairwise distinct in every extraction run
(conjunct 1); the collision loop returns the first unused candidate among
`base`, `base_1`, `base_2`, ..., every earlier candidate being taken, and
leaves a collision-free base unchanged (conjunct 2); sanitization replaces
`.` and every character outside `[a-z0-9_-]` (case-insensitively) with `_`
on a concrete name (conjunct 3); and when two operations' sanitized bases
coincide both stay in the output, the later-processed one (here the POST)
under the `_1`-suffixed name (conjunct 4). -/
theorem spec_c3_unique_names :
    (∀ (heap : Heap) (api : Api) (d : Bool),
      ((extractToolsFromApi heap api d).map (·.name)).Nodup)
    ∧ (∀ (used : List String) (base : String),
      pickName used base ∉ used
      ∧ (∃ j, candidate base j = pickName used base ∧ ∀ i, i < j → candidate base i ∈ used)
      ∧ (base ∉ used → pickName used base = base))
    ∧ sanitizeName "get.Pets list!" = "get_Pets_list_"
    ∧ (extractToolsFromApi [] collApi true).map (fun t => (t.name, t.method))
        = [("get_pets", .get), ("get_pets_1", .post)] := by
  refine ⟨?_, fun used base => pickName_spec used base, rfl, rfl⟩
  intro heap api d
  rw [extractToolsFromApi]
  cases hp : api.paths with
  | none => simp
  | some entries =>
    have h := foldlPreserves NamesInv
      (pathStep api.xMcp (api.security.getD []) d)
      (fun st e hst => pathStep_namesInv _ _ _ st e hst)
      entries ([], [], heap) ⟨by simp, by simp⟩
    exact h.1

/-- Witness for C3: the name list of a concrete two-operation run is
duplicate-free. -/
theorem spec_c3_unique_names_witness :
    ((extractToolsFromApi [] collApi true).map (·.name)).Nodup :=
  spec_c3_unique_names.1 [] collApi true

/-- A one-operation document with configurable root and path `x-mcp`
values. -/
def mkOneOpApi (rootX piX : Option XVal) (operation : Operation) (path : String) : Api :=
  { xMcp := rootX, paths := some [(path, some { xMcp := piX, ops := [(.get, operation)] })] }

/-- C4: when evaluating the inclusion filter raises, the operation is
included exactly when the configured default-include flag is true — the
`catch` skips it only under `!defaultInclude` — whatever x-mcp values made
the filter throw.  (The `console.warn` side channel is outside the
embedding.) -/
theorem spec_c4_filter_error_policy (rootX piX : Option XVal) (operation : Operation)
    (path : String) (heap : Heap) (d : Bool)
    (herr : shouldIncludeOperationForMcp operation.xMcp piX rootX d = .error ())
    (hname : jsOr operation.operationId (generateOperationId .get path) ≠ "") :
    (extractToolsFromApi heap (mkOneOpApi rootX piX operation path) d).length
      = if d then 1 else 0 := by
  have hred : extractToolsFromApi heap (mkOneOpApi rootX piX operation path) d
      = (processOperation rootX [] d path { xMcp := piX, ops := [(.get, operation)] } .get
          operation ([], [], heap)).1 := rfl
  have hx : ({ xMcp := piX, ops := [(.get, operation)] } : PathItem).xMcp = piX := rfl
  rw [hred, processOperation_eq, hx, herr]
  cases d with
  | false =>
    rw [if_neg]
    · rfl
    · intro hcontra
      exact absurd hcontra.1 (by decide)
  | true =>
    rw [if_pos ⟨rfl, hname⟩]
    rfl

/-- Witness for C4: a throwing `x-mcp` getter on the operation with
default-include false yields no tool. -/
theorem spec_c4_filter_error_policy_witness :
    (extractToolsFromApi []
        (mkOneOpApi none none { xMcp := some .xraise, operationId := some "op" } "/p")
        false).length = if false then 1 else 0 :=
  spec_c4_filter_error_policy none none { xMcp := some .xraise, operationId := some "op" }
    "/p" [] false (by decide) (by decide)

/-- A one-operation document with configurable global and operation-level
security. -/
def mkSecApi (g : Option (List SecurityRequirement)) (sec : SecField) : Api :=
  { security := g
  , paths := some [("/p", some { ops := [(.get, { operationId := some "op", security := sec })] })] }

/-- C6: the emitted tool's security requirements are the operation's own
array whenever one is declared — including the explicitly empty array —
and otherwise (absent or explicitly null) the document's global array,
which defaults to the empty list; conjuncts 1–3 state the resolution rule
itself, conjunct 4 runs the extractor on a one-operation document for an
arbitrary security field and global array. -/
theorem spec_c6_security :
    (∀ (l g : List SecurityRequirement), resolveSecurity (.sarr l) g = l)
    ∧ (∀ g : List SecurityRequirement, resolveSecurity .absent g = g)
    ∧ (∀ g : List SecurityRequirement, resolveSecurity .snull g = g)
    ∧ (∀ (heap : Heap) (g : Option (List SecurityRequirement)) (sec : SecField),
      (extractToolsFromApi heap (mkSecApi g sec) true).map (·.securityRequirements)
        = [resolveSecurity sec (g.getD [])]) :=
  ⟨fun _ _ => rfl, fun _ => rfl, fun _ => rfl, fun _ _ _ => rfl⟩

/-- A one-operation document whose operation identifier contains a dot. -/
def dotApi : Api :=
  { paths := some [("/pets", some { ops := [(.get, { operationId := some "get.pets" })] })] }

/-- C9 (counterexample): for the declared identifier `get.pets` the emitted
tool's `operationId` is the sanitized `get_pets`, not the original — the
code sanitizes `baseName` in place before storing it. -/
theorem spec_c9_counterexample :
    (extractToolsFromApi [] dotApi true).map (·.operationId) = ["get_pets"]
    ∧ ("get_pets" : String) ≠ "get.pets" :=
  ⟨rfl, by decide⟩

/-- A one-operation document with the given identifier. -/
def mkIdApi (s : String) : Api :=
  { paths := some [("/p", some { ops := [(.get, { operationId := some s })] })] }

/-- A two-operation document with the given identifiers (GET first, POST
second). -/
def mkCollApi (s1 s2 : String) : Api :=
  { paths := some [("/p", some { ops :=
      [(.get, { operationId := some s1 }), (.post, { operationId := some s2 })] })] }

/-- C9 (amended): every emitted tool records the sanitized base name —
before collision suffixing — in `operationId`; it equals the declared
identifier exactly when that identifier is unchanged by sanitization, and
for colliding identifiers the later tool's `name` carries the `_1` suffix
while its `operationId` stays the unsuffixed sanitized base. -/
theorem spec_c9_amended :
    (∀ (heap : Heap) (s : String), s ≠ "" →
      (extractToolsFromApi heap (mkIdApi s) true).map (·.operationId) = [sanitizeName s])
    ∧ (∀ (heap : Heap) (s1 s2 : String), s1 ≠ "" → s2 ≠ "" →
      sanitizeName s1 = sanitizeName s2 →
      (extractToolsFromApi heap (mkCollApi s1 s2) true).map (fun t => (t.name, t.operationId))
        = [(sanitizeName s1, sanitizeName s1),
           (sanitizeName s1 ++ "_1", sanitizeName s2)]) := by
  constructor
  · intro heap s hs
    have hred : extractToolsFromApi heap (mkIdApi s) true
        = (processOperation none [] true "/p" { ops := [(.get, { operationId := some s })] }
            .get { operationId := some s } ([], [], heap)).1 := rfl
    have hjs : jsOr (some s) (generateOperationId .get "/p") = s := by
      simp only [jsOr]
      rw [if_neg hs]
    rw [hred, processOperation_eq]
    rw [if_pos ⟨rfl, by simp only [hjs]; exact hs⟩]
    simp [toolFor, hjs]
  · intro heap s1 s2 hs1 hs2 h12
    have hjs1 : jsOr (some s1) (generateOperationId .get "/p") = s1 := by
      simp only [jsOr]; rw [if_neg hs1]
    have hjs2 : jsOr (some s2) (generateOperationId .post "/p") = s2 := by
      simp only [jsOr]; rw [if_neg hs2]
    have hred : extractToolsFromApi heap (mkCollApi s1 s2) true
        = (processOperation none [] true "/p"
            { ops := [(.get, { operationId := some s1 }), (.post, { operationId := some s2 })] }
            .post { operationId := some s2 }
            (processOperation none [] true "/p"
              { ops := [(.get, { operationId := some s1 }),
                        (.post, { operationId := some s2 })] }
              .get { operationId := some s1 } ([], [], heap))).1 := rfl
    rw [hred, processOperation_eq, if_pos ⟨rfl, by simp only [hjs2]; exact hs2⟩,
      processOperation_eq, if_pos ⟨rfl, by simp only [hjs1]; exact hs1⟩]
    simp only [toolFor, hjs1, hjs2, List.nil_append, List.map_cons, List.map_nil,
      List.map_append, pickName_nil]
    rw [← h12, pickName_single]
    rfl

/-- Witness for the amended C9 theorem: identifiers `get.pets` and
`get_pets` collide after sanitization; the POST tool is renamed
`get_pets_1` but both record `get_pets` as `operationId`. -/
theorem spec_c9_amended_witness :
    (extractToolsFromApi [] (mkCollApi "get.pets" "get_pets") true).map
        (fun t => (t.name, t.operationId))
      = [(sanitizeName "get.pets", sanitizeName "get.pets"),
         (sanitizeName "get.pets" ++ "_1", sanitizeName "get_pets")] :=
  spec_c9_amended.2 [] "get.pets" "get_pets" (by decide) (by decide) (by decide)

end Oas
